import Mathlib

/-!
Verification of the R6 unpacker core against its specification.

The Python source is shallowly embedded: byte streams become `List Nat`
(each element a byte value), cursors become explicit `Nat` positions,
Python's arbitrary-precision little-endian reads become `Nat` values,
fallible reads return `Option`, and Python slice/find semantics
(including negative indices) are modelled exactly.
-/

/-! ### Python slice / find semantics (used by `binstream.termstr` and
the mesh sentinel trimming, which both rely on Python's negative-index
slicing rules). -/

/-- Normalization of one Python slice bound against a list of length `n`:
a negative index counts from the end and clamps at `0`; a non-negative
index clamps at `n`. -/
def pyNorm (n : Nat) (i : Int) : Nat :=
  if i < 0 then (i + n).toNat else min i.toNat n

/-- Python slice `l[i:j]` with full negative-index semantics. -/
def pySlice {α : Type} (l : List α) (i j : Int) : List α :=
  let s := pyNorm l.length i
  let e := pyNorm l.length j
  (l.drop s).take (e - s)

/-- Python `bytes.find` for a single byte `b`: index of the first
occurrence, `-1` when absent. -/
def pyFind (s : List Nat) (b : Nat) : Int :=
  match s.findIdx? (· = b) with
  | some i => (i : Int)
  | none => -1

/-- Embedding of `binstream.termstr`: `s[:s.find(b"\x00")]`. -/
def termstr (s : List Nat) : List Nat :=
  pySlice s 0 (pyFind s 0)

/-! ### Texture decoder (`r6s/tex.py`). Only the fields involved in the
dimension query are semantically relevant; `chan` is the field the
specification calls `mip_shift`. -/

/-- Decoded texture record of `tex.Tex` (the trailer fields the
dimension query reads; the remaining fields are opaque). -/
structure Tex where
  w : Nat
  h : Nat
  chan : Nat
  mips : Nat

/-- Embedding of `Tex.get_dimensions`: `chan = 2 ** self.chan;
[self.w // chan, self.h // chan]`. -/
def Tex.get_dimensions (t : Tex) : List Nat :=
  [t.w / 2 ^ t.chan, t.h / 2 ^ t.chan]

/-! ### Dependency-graph links (`r6s/forge.py`, classes `DepGraph` and
`Link`). A `Link` is equal to another exactly when all six serialized
fields agree (`Link.__eq__` compares `vars(self)`), which is the
derived structural equality here. -/

/-- Embedding of `forge.Link`: `u64 src, u64 dst, i32 x10, u16 x14,
u8 x16, u8 x17`. -/
structure Link where
  src : Nat
  dst : Nat
  x10 : Int
  x14 : Nat
  x16 : Nat
  x17 : Nat
deriving DecidableEq, Repr

/-- Embedding of the instance branch of `DepGraph.parse`:
`result.links = list(set(result.links + links))`. Python's `set` fixes
the member set but not the order; `List.dedup` realizes one such
order, and every property proved below is stated up to set equality. -/
def DepGraph.mergeParse (links new : List Link) : List Link :=
  (links ++ new).dedup

/-- Embedding of `forge.gather_links`: start from an empty `DepGraph`
and call `parse` (instance branch) once per input file, in order. Each
element of `files` is the link list parsed from one `.depgraphbin`. -/
def gather_links (files : List (List Link)) : List Link :=
  files.foldl DepGraph.mergeParse []

/-! ### Asset resolver (`r6s/collector.py`, `SiegeLinksData`). The
forge/depgraph scanning loops are I/O; their results (`asset_uids`,
`uids_index`, `all_links`) enter the model as values. `generate`
filters the links and writes four pickle files; `load` reads the four
files back. The pickle round trip is modelled as an identity store of
the four artifacts. -/

/-- One `uids_index` record: `{"forge": ..., "index": ..., "magic": ...}`
with the forge file name abstracted to a number. -/
structure UidInfo where
  forge : Nat
  index : Nat
  magic : Nat
deriving DecidableEq, Repr

/-- The four artifacts of the resolver, both as the in-memory state of
`SiegeLinksData` and as the contents of the four cache files. -/
structure LinksData where
  asset_uids : List Nat
  uids_index : List (Nat × UidInfo)
  all_links : List Link
  asset_children : List Link
deriving DecidableEq, Repr

/-- Embedding of the filter loop of `SiegeLinksData.generate`:
`filtered_links = [l for l in all_links.links if l.src in asset_uids]`. -/
def collectorFilter (asset_uids : List Nat) (all_links : List Link) : List Link :=
  all_links.filter (fun l => l.src ∈ asset_uids)

/-- Embedding of `SiegeLinksData.generate` after the scanning loops:
the returned pair is (in-memory state, persisted cache files). The
persisted `asset_children` file receives `all_links` because the source
executes `pckl.dump(all_links, w)` on the `asset_children` cache path
(collector.py line 141), while the in-memory `asset_children` holds the
filtered links. -/
def SiegeLinksData.generate (asset_uids : List Nat)
    (uids_index : List (Nat × UidInfo)) (all_links : List Link) :
    LinksData × LinksData :=
  let filtered := collectorFilter asset_uids all_links
  (⟨asset_uids, uids_index, all_links, filtered⟩,
   ⟨asset_uids, uids_index, all_links, all_links⟩)

/-- Embedding of `SiegeLinksData.load`: read the four cache files back
into the in-memory state. -/
def SiegeLinksData.load (store : LinksData) : LinksData :=
  store

/-! ### Byte-level reader and the forge `File` / `Datablock` parser
(`r6s/forge.py`). -/

/-- Little-endian value of a byte list (first byte least significant),
as `struct.unpack` computes it for the unsigned integer formats. -/
def leVal (bytes : List Nat) : Nat :=
  bytes.foldr (fun b acc => b + 256 * acc) 0

/-- Read `k` bytes at `pos` as an unsigned little-endian integer,
returning the value and the advanced cursor. Fails when fewer than `k`
bytes remain, as the Python `struct.unpack` of a short read does. -/
def readLE (data : List Nat) (pos k : Nat) : Option (Nat × Nat) :=
  if pos + k ≤ data.length then some (leVal ((data.drop pos).take k), pos + k)
  else none

/-- Embedding of `Container.File.Datablock.Chunk`: the two serialized
sizes plus the `hash` and `offset` fields set later by `finalize`. -/
structure Chunk where
  unpacked : Nat
  packed : Nat
  hash : Nat
  offset : Nat
deriving DecidableEq, Repr

/-- `Chunk.ispacked`, computed in `Chunk.__init__` as
`self.unpacked > self.packed`. -/
def Chunk.ispacked (c : Chunk) : Bool :=
  decide (c.packed < c.unpacked)

/-- First pass of `Datablock.__init__` over one chunk
(`Chunk.__init__`): read `unpacked: u32` then `packed: u32`; `hash`
and `offset` start at zero until `finalize` runs. -/
def parseChunk (data : List Nat) (pos : Nat) : Option (Chunk × Nat) := do
  let (unpacked, pos) ← readLE data pos 4
  let (packed, pos) ← readLE data pos 4
  some (⟨unpacked, packed, 0, 0⟩, pos)

/-- The first-pass loop of `Datablock.__init__`: `num_chunks` size
pairs back to back. -/
def parseChunks (data : List Nat) : Nat → Nat → Option (List Chunk × Nat)
  | 0, pos => some ([], pos)
  | n + 1, pos => do
    let (c, pos) ← parseChunk data pos
    let (cs, pos) ← parseChunks data n pos
    some (c :: cs, pos)

/-- Second pass of `Datablock.__init__` (`chunk.finalize(r)` followed
by `r.seek(chunk.packed, io.SEEK_CUR)`): read the `u32` hash, record
the cursor after it as the chunk's `offset`, then skip the packed
payload. A Python relative seek cannot fail even past the end of the
stream, so only the hash read is fallible. -/
def finalizeChunks (data : List Nat) : List Chunk → Nat → Option (List Chunk × Nat)
  | [], pos => some ([], pos)
  | c :: cs, pos => do
    let (h, pos) ← readLE data pos 4
    let (rest, fin) ← finalizeChunks data cs (pos + c.packed)
    some ({ c with hash := h, offset := pos } :: rest, fin)

/-- Embedding of `Container.File.Datablock`: the `xD` preamble field
(kept because the source keeps it) and the finalized chunk list. -/
structure Datablock where
  xD : Nat
  chunks : List Chunk
deriving DecidableEq, Repr

/-- Embedding of `Datablock.__init__`: the fixed preamble (`u16`,
`u16`, `u8`, `u16 xD`, `u32 num_chunks`), the first pass over the
size pairs, then the second pass over hashes and payload skips. -/
def parseDatablock (data : List Nat) (pos : Nat) : Option (Datablock × Nat) := do
  let (_, pos) ← readLE data pos 2
  let (_, pos) ← readLE data pos 2
  let (_, pos) ← readLE data pos 1
  let (xD, pos) ← readLE data pos 2
  let (numChunks, pos) ← readLE data pos 4
  let (cs, pos) ← parseChunks data numChunks pos
  let (cs, pos) ← finalizeChunks data cs pos
  some (⟨xD, cs⟩, pos)

/-- Result state of `Container.File.__init__`: the `meta` and `file`
slots, each `None` or a parsed `Datablock`. -/
structure FileC where
  meta : Option Datablock
  file : Option Datablock
deriving DecidableEq, Repr

/-- Magic checked by the leading `assert` of `File.__init__`. -/
def FILE_INNER_MAGIC : Nat := 0x1014FA99

/-- The nested container magic probed after the first datablock. -/
def NESTED_CONTAINER_MAGIC : Nat := 0x1014FA9957FBAA34

/-- Embedding of `Container.File.__init__` for an entry whose payload
starts at `pos` and ends at `fend` (`entry.end`): assert the `u32`
magic, parse the first `Datablock`; if the cursor is still below
`fend`, read the `u64` probe and either parse the second `Datablock`
into `file` (probe matched) or keep only `meta` and seek to `fend`
(probe unknown); if the first block consumed the entry, it is the
`file`. Returns the slots and the final cursor. -/
def parseFile (data : List Nat) (pos fend : Nat) : Option (FileC × Nat) := do
  let (magic, pos) ← readLE data pos 4
  if magic = FILE_INNER_MAGIC then
    let (block, pos) ← parseDatablock data pos
    if pos < fend then do
      let (probe, pos) ← readLE data pos 8
      if probe = NESTED_CONTAINER_MAGIC then do
        let (block2, pos) ← parseDatablock data pos
        some (⟨some block, some block2⟩, pos)
      else
        some (⟨some block, none⟩, fend)
    else
      some (⟨none, some block⟩, pos)
  else
    none

/-- Bytes produced by `r.seek(off); r.read(n)` over the archive. -/
def readBytes (data : List Nat) (off n : Nat) : List Nat :=
  (data.drop off).take n

/-- Embedding of `forge.getdatastream` applied to a `Datablock`: for
each chunk in order, seek to its offset and either copy the `packed`
bytes raw or zstd-decompress them targeting `unpacked` output bytes.
The zstd codec is an external native library and enters the model as
the uninterpreted function `zstdDec` (arguments: compressed bytes,
target output size `write_size`). The chunk results are concatenated
in chunk order; the list starts at index zero, which models
`result.seek(0)`. -/
def getdatastream (zstdDec : List Nat → Nat → List Nat)
    (data : List Nat) (db : Datablock) : List Nat :=
  (db.chunks.map (fun c =>
    if c.ispacked then zstdDec (readBytes data c.offset c.packed) c.unpacked
    else readBytes data c.offset c.packed)).flatten

/-! ### Mesh decoder (`r6s/mesh/__init__.py`). -/

/-- `TRIS_CHUNK_SIZE`: bytes per triangle chunk. -/
def TRIS_CHUNK_SIZE : Nat := 0x180

/-- `TRIS_IN_CHUNK`: triangles per chunk. -/
def TRIS_IN_CHUNK : Nat := 64

/-- The sentinel scan of `Mesh._parse_tris_blocks_`:
`while tri_indices[last_tri_index : last_tri_index + 3] == invalid_tri:
last_tri_index -= 3`, with Python slice semantics on the possibly
negative `last_tri_index`. The Python loop always stops by the time
the index reaches `-3`, because that slice is empty while
`invalid_tri` has three elements; the fuel `tri.length / 3 + 2`
supplied by `parse_tris_island` is therefore enough, and
`trimLoop_exit` below proves the fuelled recursion reaches the loop's
exit condition, so this equals the unbounded loop. -/
def trimLoop (tri invalid : List Nat) : Nat → Int → Int
  | 0, lti => lti
  | fuel + 1, lti =>
    if pySlice tri lti (lti + 3) = invalid then trimLoop tri invalid fuel (lti - 3)
    else lti

/-- `list(zip(i_tris, i_tris, i_tris))` over a single iterator: group
consecutive index triples, dropping a final incomplete group. -/
def tripleUp : List Nat → List (Nat × Nat × Nat)
  | a :: b :: c :: rest => (a, b, c) :: tripleUp rest
  | _ => []

/-- Per-island body of `Mesh._parse_tris_blocks_`, applied to the
island's raw `tri_indices` (the `num_tris_chunks * TRIS_IN_CHUNK * 3`
`u16` values read for the island): when the buffer is non-empty, take
its last index, trim trailing `(last, last, last)` triplets from the
tail, truncate at `last_tri_index + 3`, and pack the remaining indices
into triangles; an empty island yields no triangles. All slice reads
stay inside the buffer by Python slice semantics (`pySlice` is total
and clamps). -/
def parse_tris_island (tri : List Nat) : List (Nat × Nat × Nat) :=
  if tri = [] then []
  else
    let last_id := tri.getLastD 0
    let invalid := [last_id, last_id, last_id]
    let lti := trimLoop tri invalid (tri.length / 3 + 2) ((tri.length : Int) - 3)
    tripleUp (pySlice tri 0 (lti + 3))

/-- Outcome of the vertex-reading phase of `Mesh.readmesh`. -/
inductive VertsOutcome where
  | ok
  | attrError
  | valueError
deriving DecidableEq, Repr

/-- Control flow of the vertex-format dispatch in `Mesh.readmesh`,
assuming the stream holds enough bytes so that no read fails: which
`(revision, vert_len, num_verts)` inputs decode, and what the `0x5C`
branch actually does. That branch never sets `known_format` and
appends to `self.unar1`, which `__init__` left as `None`; hence for
`num_verts > 0` its first iteration raises `AttributeError`
(`.attrError`), and for `num_verts = 0` control falls through to
`raise ValueError("Unknown mesh vertex length ...")` (`.valueError`).
Every branch that sets `known_format = True` returns `.ok`. -/
def readmesh_verts_outcome (revision vert_len num_verts : Nat) : VertsOutcome :=
  if revision = 0 then
    if vert_len = 0x18 ∨ vert_len = 0x1C then .ok else .valueError
  else if revision = 1 ∨ revision = 2 then
    if vert_len = 0x18 ∨ vert_len = 0x1C then .ok
    else if vert_len = 0x24 ∨ vert_len = 0x28 ∨ vert_len = 0x2C then .ok
    else if vert_len = 0x5C then
      if num_verts = 0 then .valueError else .attrError
    else .valueError
  else .valueError

/-- The layout table of the specification for §4.F ("Vertex stream
decoding — selected by (revision, vert_stride)"; any other combination
`UnsupportedMeshFormat`). Stated from the spec's table, for comparison
with the dispatch implemented by `readmesh_verts_outcome`. -/
def specSupportedLayout (revision vert_len : Nat) : Bool :=
  decide ((revision = 0 ∧ (vert_len = 0x18 ∨ vert_len = 0x1C)) ∨
    ((revision = 1 ∨ revision = 2) ∧
      (vert_len = 0x18 ∨ vert_len = 0x1C ∨ vert_len = 0x24 ∨
       vert_len = 0x28 ∨ vert_len = 0x2C ∨ vert_len = 0x5C)))

/-! ### Derived mesh view cleanup (`Mesh.remove_isolated_verts` and
the module-level `_filter_by_indices_`). -/

/-- Embedding of `_filter_by_indices_`:
`[v for i, v in enumerate(lst) if i in indices]`. -/
def filterByIndices {α : Type} (lst : List α) (indices : List Nat) : List α :=
  ((lst.enum).filter (fun p => p.1 ∈ indices)).map Prod.snd

/-- The meshdata dictionary handed to `Mesh.remove_isolated_verts`:
`verts` plus the optional `normals`/`uvs` keys, the optional list of
color layers, and the islands map `mat_id → [triangle]` (an ordered
association list; the keys are carried but not consulted here).
Vertex payloads are abstracted to a type `α`. -/
structure Meshdata (α : Type) where
  verts : List α
  normals : Option (List α)
  uvs : Option (List α)
  colors : Option (List (List α))
  islands : List (Nat × List (Nat × Nat × Nat))

/-- The triangle-referenced vertex indices:
`(v for island in meshdata["islands"].values() for tri in island for v
in tri)`. -/
def usedVertIndices (islands : List (Nat × List (Nat × Nat × Nat))) : List Nat :=
  islands.flatMap (fun isl => isl.2.flatMap (fun t => [t.1, t.2.1, t.2.2]))

/-- The `used_verts = sorted(set(...))` line of
`Mesh.remove_isolated_verts`, realized as `insertionSort` of `dedup`
(the same sorted duplicate-free list of referenced indices). -/
def usedVertsSorted (islands : List (Nat × List (Nat × Nat × Nat))) : List Nat :=
  ((usedVertIndices islands).dedup).insertionSort (· ≤ ·)

/-- Embedding of `Mesh.remove_isolated_verts`: `used_verts =
sorted(set(...))` over the triangle-referenced indices, the
`old → new` mapping produced by enumerating `used_verts` (looking it
up is taking the position in `used_verts`, i.e. `indexOf`), compaction
of `verts`/`normals`/`uvs` and of each color layer with
`_filter_by_indices_`, and the remap of every triangle index. -/
def remove_isolated_verts {α : Type} (md : Meshdata α) : Meshdata α :=
  let used_verts := usedVertsSorted md.islands
  let vert_mapping := fun x => used_verts.indexOf x
  { verts := filterByIndices md.verts used_verts
    normals := md.normals.map (fun l => filterByIndices l used_verts)
    uvs := md.uvs.map (fun l => filterByIndices l used_verts)
    colors := md.colors.map (fun cols => cols.map (fun c => filterByIndices c used_verts))
    islands := md.islands.map (fun p =>
      (p.1, p.2.map (fun t => (vert_mapping t.1, vert_mapping t.2.1, vert_mapping t.2.2)))) }

/-! ## Helper lemmas -/

/-- Truncation with a saturating count: `take` already clamps at the
length, so clamping the count is redundant. -/
theorem take_min_length {α : Type} (l : List α) (m : Nat) :
    l.take (min m l.length) = l.take m := by
  rcases le_total m l.length with h | h
  · rw [min_eq_left h]
  · rw [min_eq_right h, List.take_length, List.take_of_length_le h]

/-- A Python slice `l[:j]` with non-negative `j` is a plain `take`. -/
theorem pySlice_zero_nonneg {α : Type} (l : List α) (j : Int) (hj : 0 ≤ j) :
    pySlice l 0 j = l.take j.toNat := by
  simp only [pySlice, pyNorm]
  have h1 : ¬ ((0 : Int) < 0) := by omega
  have h2 : ¬ (j < 0) := by omega
  rw [if_neg h1, if_neg h2]
  simp only [Int.toNat_zero, Nat.zero_min, List.drop_zero, Nat.sub_zero]
  exact take_min_length l j.toNat

/-- A Python slice `l[:j]` with negative `j` counts from the end. -/
theorem pySlice_zero_neg {α : Type} (l : List α) (j : Int) (hj : j < 0) :
    pySlice l 0 j = l.take (j + l.length).toNat := by
  simp only [pySlice, pyNorm]
  have h1 : ¬ ((0 : Int) < 0) := by omega
  rw [if_neg h1, if_pos hj]
  simp only [Int.toNat_zero, Nat.zero_min, List.drop_zero, Nat.sub_zero]

/-- Taking up to the first index satisfying the zero test is the same
as taking while the byte is nonzero. -/
theorem take_findIdx_zero (s : List Nat) :
    s.take (s.findIdx (fun b => b = 0)) = s.takeWhile (fun b => b ≠ 0) := by
  induction s with
  | nil => rfl
  | cons a t ih =>
    by_cases h : a = 0
    · subst h
      simp [List.findIdx_cons, List.takeWhile_cons]
    · simp [List.findIdx_cons, List.takeWhile_cons, h, ih]

/-! ## Claim theorems -/

/-- C8: for every decoded texture, the dimension query returns
`real_w = w >> mip_shift` and `real_h = h >> mip_shift` (the source
computes floor division by `2 ** chan`, `chan` being the field the
specification calls `mip_shift`, and for unsigned values floor
division by a power of two is exactly the right shift). -/
theorem tex_get_dimensions_shift (t : Tex) :
    t.get_dimensions = [t.w >>> t.chan, t.h >>> t.chan] := by
  simp [Tex.get_dimensions, Nat.shiftRight_eq_div_pow]

/-- C7 counterexample: on the NUL-free input `b"ab"` the helper does
not return all bytes read; `bytes.find` returns `-1` and the slice
`s[:-1]` drops the final byte. -/
theorem termstr_counterexample :
    termstr [97, 98] = [97] ∧ termstr [97, 98] ≠ [97, 98] := by decide

/-- C7 amended: when the input contains a NUL byte, `termstr` returns
the prefix strictly before the first NUL; when it contains none,
`bytes.find` returns `-1` and `termstr` returns all bytes except the
last one. -/
theorem termstr_spec (s : List Nat) :
    termstr s = if (0 : Nat) ∈ s then s.takeWhile (fun b => b ≠ 0) else s.dropLast := by
  unfold termstr pyFind
  cases h : s.findIdx? (fun b => b = 0) with
  | none =>
    have hnot : (0 : Nat) ∉ s := by
      intro hm
      have := List.findIdx?_eq_none_iff.mp h 0 hm
      simp at this
    rw [if_neg hnot, pySlice_zero_neg s (-1) (by omega)]
    have h3 : ((-1 : Int) + s.length).toNat = s.length - 1 := by omega
    rw [h3, List.dropLast_eq_take]
  | some i =>
    have hfi := List.findIdx?_eq_some_iff_findIdx_eq.mp h
    have hmem : (0 : Nat) ∈ s := by
      by_contra hnot
      have : s.findIdx? (fun b => b = 0) = none := by
        rw [List.findIdx?_eq_none_iff]
        intro x hx
        simp only [decide_eq_false_iff_not]
        intro h0
        exact hnot (h0 ▸ hx)
      rw [this] at h
      exact Option.noConfusion h
    rw [if_pos hmem, pySlice_zero_nonneg s i (by omega)]
    have h4 : (i : Int).toNat = i := by omega
    rw [h4, ← hfi.2, take_findIdx_zero]

/-- C2: the resolver's generate step stores the wrong artifact in the
`asset_children` cache file. The filter itself computes
`{L ∈ all_links : L.src ∈ asset_uids}` and the in-memory state holds
it, but `generate` pickles `all_links` into the `asset_children` file
(`pckl.dump(all_links, w)`), so generate followed by load yields the
unfiltered link set. Failing input: no asset uids and a single link
with `src = 1`; the filtered set is empty, yet load returns the one
link. -/
theorem collector_asset_children_bug :
    collectorFilter [] [⟨1, 2, 0, 0, 0, 0⟩] = [] ∧
    (SiegeLinksData.generate [] [] [⟨1, 2, 0, 0, 0, 0⟩]).1.asset_children = [] ∧
    (SiegeLinksData.load (SiegeLinksData.generate [] [] [⟨1, 2, 0, 0, 0, 0⟩]).2).asset_children
      = [⟨1, 2, 0, 0, 0, 0⟩] := by
  refine ⟨rfl, rfl, rfl⟩

/-- C3: the `(revision ∈ {1,2}, vert_stride = 0x5C)` row of the
specification's layout table does not decode in the code. The `0x5C`
branch of `Mesh.readmesh` never sets `known_format = True` and appends
to `self.unar1`, which `__init__` initialized to `None`: with at least
one vertex the first loop iteration raises `AttributeError`, and with
zero vertices control falls through to the
`ValueError("Unknown mesh vertex length ...")` raise. So the decoder
fails on a combination inside the table, contradicting both halves of
the claim. -/
theorem readmesh_5C_bug :
    specSupportedLayout 1 0x5C = true ∧
    readmesh_verts_outcome 1 0x5C 1 = VertsOutcome.attrError ∧
    readmesh_verts_outcome 2 0x5C 0 = VertsOutcome.valueError ∧
    readmesh_verts_outcome 1 0x5C 1 ≠ VertsOutcome.ok := by decide

/-- The link set produced by one instance-`parse` merge is the union of
the two link sets. -/
theorem mergeParse_toFinset (a b : List Link) :
    (DepGraph.mergeParse a b).toFinset = a.toFinset ∪ b.toFinset := by
  ext x
  simp [DepGraph.mergeParse, List.mem_dedup]

/-- The link set gathered from a list of files is a fold of unions of
the per-file link sets. -/
theorem gather_links_toFinset (files : List (List Link)) :
    (gather_links files).toFinset
      = files.foldl (fun s l => s ∪ l.toFinset) ∅ := by
  have aux : ∀ (fs : List (List Link)) (acc : List Link),
      (fs.foldl DepGraph.mergeParse acc).toFinset
        = fs.foldl (fun s l => s ∪ l.toFinset) acc.toFinset := by
    intro fs
    induction fs with
    | nil => intro acc; rfl
    | cons f rest ih =>
      intro acc
      simp only [List.foldl_cons]
      rw [ih, mergeParse_toFinset]
  simpa using aux files []

/-- C6: merging dependency-graph files computes the union of links
under the six-field structural equality (`Link.__eq__`/`__hash__` use
exactly the six serialized fields, which is the derived structural
equality of `Link`), and the resulting link set does not depend on the
order in which the same files are merged. -/
theorem depgraph_merge_set_semantics (a b : List Link)
    (files files' : List (List Link)) (hp : files.Perm files') :
    (DepGraph.mergeParse a b).toFinset = a.toFinset ∪ b.toFinset ∧
    (gather_links files).toFinset = (gather_links files').toFinset := by
  refine ⟨mergeParse_toFinset a b, ?_⟩
  rw [gather_links_toFinset, gather_links_toFinset]
  exact hp.foldl_eq' (by
    intro x _ y _ z
    ext u
    simp only [Finset.mem_union]
    tauto) ∅

/-- C6 witness: two concrete one-link files merged in both orders give
the same three-element link set, and one merge is the plain union. -/
theorem depgraph_merge_set_semantics_witness :
    ([[⟨1, 2, 3, 4, 5, 6⟩], [⟨7, 8, 9, 10, 11, 12⟩]] : List (List Link)).Perm
        [[⟨7, 8, 9, 10, 11, 12⟩], [⟨1, 2, 3, 4, 5, 6⟩]] ∧
    ((DepGraph.mergeParse [⟨1, 2, 3, 4, 5, 6⟩] [⟨7, 8, 9, 10, 11, 12⟩]).toFinset
        = ([⟨1, 2, 3, 4, 5, 6⟩] : List Link).toFinset ∪
          ([⟨7, 8, 9, 10, 11, 12⟩] : List Link).toFinset ∧
      (gather_links [[⟨1, 2, 3, 4, 5, 6⟩], [⟨7, 8, 9, 10, 11, 12⟩]]).toFinset
        = (gather_links [[⟨7, 8, 9, 10, 11, 12⟩], [⟨1, 2, 3, 4, 5, 6⟩]]).toFinset) :=
  ⟨by decide,
   depgraph_merge_set_semantics [⟨1, 2, 3, 4, 5, 6⟩] [⟨7, 8, 9, 10, 11, 12⟩]
     [[⟨1, 2, 3, 4, 5, 6⟩], [⟨7, 8, 9, 10, 11, 12⟩]]
     [[⟨7, 8, 9, 10, 11, 12⟩], [⟨1, 2, 3, 4, 5, 6⟩]] (by decide)⟩

/-- C4: over a valid archive, the decompressed stream of a `Datablock`
has exactly `sum(c.unpacked for c in D.chunks)` bytes. Validity of the
archive is the hypothesis pair: every compressed chunk's zstd frame
decodes to exactly its `unpacked` size, and every raw chunk has
`unpacked = packed` with its payload fully inside the byte source.
Each compressed chunk then contributes its `unpacked` size, each raw
chunk is copied verbatim, concatenation is in chunk order by
construction of `getdatastream`, and the result is positioned at zero
(the model is a list read from index zero). -/
theorem getdatastream_length (zstdDec : List Nat → Nat → List Nat)
    (data : List Nat) (db : Datablock)
    (hpacked : ∀ c ∈ db.chunks, c.ispacked = true →
      (zstdDec (readBytes data c.offset c.packed) c.unpacked).length = c.unpacked)
    (hraw : ∀ c ∈ db.chunks, c.ispacked = false →
      c.unpacked = c.packed ∧ c.offset + c.packed ≤ data.length) :
    (getdatastream zstdDec data db).length
      = (db.chunks.map Chunk.unpacked).sum := by
  unfold getdatastream
  generalize hgen : db.chunks = chunks at hpacked hraw ⊢
  clear hgen
  induction chunks with
  | nil => rfl
  | cons c cs ih =>
    have hc : (if c.ispacked then zstdDec (readBytes data c.offset c.packed) c.unpacked
        else readBytes data c.offset c.packed).length = c.unpacked := by
      by_cases h : c.ispacked
      · rw [if_pos h]
        exact hpacked c (List.mem_cons_self c cs) h
      · rw [if_neg h]
        have hr := hraw c (List.mem_cons_self c cs) (by simpa using h)
        simp only [readBytes, List.length_take, List.length_drop]
        omega
    simp only [List.map_cons, List.flatten_cons, List.length_append, List.sum_cons]
    rw [hc, ih (fun x hx => hpacked x (List.mem_cons_of_mem c hx))
      (fun x hx => hraw x (List.mem_cons_of_mem c hx))]

/-- C4 witness: a two-chunk datablock — one raw chunk of two bytes
fully inside a six-byte source, one compressed chunk whose modelled
zstd decode yields its three-byte unpacked size — satisfies the
validity hypotheses, and the stream length is `2 + 3`. -/
theorem getdatastream_length_witness :
    (∀ c ∈ (Datablock.mk 0 [⟨2, 2, 0, 0⟩, ⟨3, 1, 0, 2⟩]).chunks, c.ispacked = true →
      ((fun (_ : List Nat) (n : Nat) => List.replicate n 9)
          (readBytes [1, 2, 3, 4, 5, 6] c.offset c.packed) c.unpacked).length = c.unpacked) ∧
    (∀ c ∈ (Datablock.mk 0 [⟨2, 2, 0, 0⟩, ⟨3, 1, 0, 2⟩]).chunks, c.ispacked = false →
      c.unpacked = c.packed ∧ c.offset + c.packed ≤ ([1, 2, 3, 4, 5, 6] : List Nat).length) ∧
    (getdatastream (fun (_ : List Nat) (n : Nat) => List.replicate n 9)
        [1, 2, 3, 4, 5, 6] (Datablock.mk 0 [⟨2, 2, 0, 0⟩, ⟨3, 1, 0, 2⟩])).length
      = ((Datablock.mk 0 [⟨2, 2, 0, 0⟩, ⟨3, 1, 0, 2⟩]).chunks.map Chunk.unpacked).sum :=
  ⟨by decide, by decide,
   getdatastream_length (fun _ n => List.replicate n 9) [1, 2, 3, 4, 5, 6]
     (Datablock.mk 0 [⟨2, 2, 0, 0⟩, ⟨3, 1, 0, 2⟩]) (by decide) (by decide)⟩

/-- C1 counterexample: a concrete 23-byte entry — the `0x1014FA99`
magic, an empty first `Datablock` (cursor at 15), and a `u64` probe of
`0` with `entry.end = 23`. The cursor is below `entry.end` and the
probe differs from `0x1014FA9957FBAA34`, yet the decoded `File` has
`file = None` (the first `Datablock` is stored only as `meta`), so the
first `Datablock` is not treated as the payload `File.file` as the
claim states. -/
theorem file_init_unknown_probe_counterexample :
    (parseFile [0x99, 0xFA, 0x14, 0x10, 2, 0, 3, 0, 0, 0, 0, 0, 0, 0, 0,
        0, 0, 0, 0, 0, 0, 0, 0] 0 23).map (fun x => x.1.file) = some none ∧
    parseFile [0x99, 0xFA, 0x14, 0x10, 2, 0, 3, 0, 0, 0, 0, 0, 0, 0, 0,
        0, 0, 0, 0, 0, 0, 0, 0] 0 23
      = some (⟨some ⟨0, []⟩, none⟩, 23) := by
  refine ⟨rfl, rfl⟩

/-- C1 amended: after the magic and the first `Datablock`, when the
cursor is still below `entry.end`, the `u64` probe decides the shape:
if it equals `0x1014FA9957FBAA34`, a second `Datablock` is decoded and
becomes the payload `File.file` with the first as `File.meta`;
otherwise the first `Datablock` is kept only as metadata
(`File.meta`), `File.file` stays `None`, and the cursor is skipped to
`entry.end`. -/
theorem file_init_branches (data : List Nat) (pos fend p1 p2 magic : Nat)
    (block : Datablock)
    (h4 : readLE data pos 4 = some (magic, p1))
    (hm : magic = FILE_INNER_MAGIC)
    (hb : parseDatablock data p1 = some (block, p2))
    (hlt : p2 < fend) :
    (∀ probe p3, readLE data p2 8 = some (probe, p3) →
      probe ≠ NESTED_CONTAINER_MAGIC →
      parseFile data pos fend = some (⟨some block, none⟩, fend)) ∧
    (∀ probe p3 block2 p4, readLE data p2 8 = some (probe, p3) →
      probe = NESTED_CONTAINER_MAGIC →
      parseDatablock data p3 = some (block2, p4) →
      parseFile data pos fend = some (⟨some block, some block2⟩, p4)) := by
  constructor
  · intro probe p3 hread hne
    simp only [parseFile, Option.bind_eq_bind, Option.some_bind, h4, hb, hread]
    rw [if_pos hm, if_pos hlt, if_neg hne]
  · intro probe p3 block2 p4 hread hpm hb2
    simp only [parseFile, Option.bind_eq_bind, Option.some_bind, h4, hb, hread]
    rw [if_pos hm, if_pos hlt, if_pos hpm, hb2]
    simp only [Option.bind_eq_bind, Option.some_bind]

/-- C1 witness: a concrete 34-byte entry holding an empty first
`Datablock`, the nested-container magic, and a second empty
`Datablock`; the matched-probe branch of the theorem yields
`meta = first block`, `file = second block`. -/
theorem file_init_branches_witness :
    readLE [0x99, 0xFA, 0x14, 0x10, 2, 0, 3, 0, 0, 0, 0, 0, 0, 0, 0,
        0x34, 0xAA, 0xFB, 0x57, 0x99, 0xFA, 0x14, 0x10,
        2, 0, 3, 0, 0, 0, 0, 0, 0, 0, 0] 0 4 = some (FILE_INNER_MAGIC, 4) ∧
    parseDatablock [0x99, 0xFA, 0x14, 0x10, 2, 0, 3, 0, 0, 0, 0, 0, 0, 0, 0,
        0x34, 0xAA, 0xFB, 0x57, 0x99, 0xFA, 0x14, 0x10,
        2, 0, 3, 0, 0, 0, 0, 0, 0, 0, 0] 4 = some (⟨0, []⟩, 15) ∧
    15 < 34 ∧
    readLE [0x99, 0xFA, 0x14, 0x10, 2, 0, 3, 0, 0, 0, 0, 0, 0, 0, 0,
        0x34, 0xAA, 0xFB, 0x57, 0x99, 0xFA, 0x14, 0x10,
        2, 0, 3, 0, 0, 0, 0, 0, 0, 0, 0] 15 8 = some (NESTED_CONTAINER_MAGIC, 23) ∧
    parseFile [0x99, 0xFA, 0x14, 0x10, 2, 0, 3, 0, 0, 0, 0, 0, 0, 0, 0,
        0x34, 0xAA, 0xFB, 0x57, 0x99, 0xFA, 0x14, 0x10,
        2, 0, 3, 0, 0, 0, 0, 0, 0, 0, 0] 0 34
      = some (⟨some ⟨0, []⟩, some ⟨0, []⟩⟩, 34) :=
  ⟨by decide, by decide, by decide, by decide,
   (file_init_branches [0x99, 0xFA, 0x14, 0x10, 2, 0, 3, 0, 0, 0, 0, 0, 0, 0, 0,
        0x34, 0xAA, 0xFB, 0x57, 0x99, 0xFA, 0x14, 0x10,
        2, 0, 3, 0, 0, 0, 0, 0, 0, 0, 0] 0 34 4 15 FILE_INNER_MAGIC ⟨0, []⟩
      (by decide) rfl (by decide) (by decide)).2 NESTED_CONTAINER_MAGIC 23 ⟨0, []⟩ 34
      (by decide) rfl (by decide)⟩

/-- A Python slice `tri[l : l+3]` can only produce a three-element
list when `l` is non-negative and `l + 3` fits inside the buffer
(given `l ≥ -3`, which the trim loop maintains). -/
theorem pySlice_three {α : Type} (tri : List α) (v : List α) (lti : Int)
    (hv : v.length = 3) (hge : -3 ≤ lti)
    (h : pySlice tri lti (lti + 3) = v) :
    0 ≤ lti ∧ lti.toNat + 3 ≤ tri.length := by
  have hlen : (pySlice tri lti (lti + 3)).length = 3 := by rw [h, hv]
  simp only [pySlice, pyNorm, List.length_take, List.length_drop] at hlen
  split_ifs at hlen <;> omega

/-- A Python slice `tri[l : l+3]` for in-range non-negative `l` is a
plain take of a drop. -/
theorem pySlice_nonneg_take {α : Type} (tri : List α) (lti : Int)
    (h0 : 0 ≤ lti) (hb : lti.toNat + 3 ≤ tri.length) :
    pySlice tri lti (lti + 3) = (tri.drop lti.toNat).take 3 := by
  have hs : pyNorm tri.length lti = lti.toNat := by
    simp only [pyNorm]
    split_ifs <;> omega
  have he : pyNorm tri.length (lti + 3) = lti.toNat + 3 := by
    simp only [pyNorm]
    split_ifs <;> omega
  simp only [pySlice, hs, he]
  congr 1
  omega

/-- The fuel supplied to `trimLoop` is sufficient: the returned index
no longer satisfies the loop condition, exactly as the Python `while`
loop guarantees on exit. -/
theorem trimLoop_exit (tri : List Nat) (k : Nat) :
    ∀ (fuel : Nat) (lti : Int), -3 ≤ lti → (lti + 3).toNat + 3 ≤ 3 * fuel →
    pySlice tri (trimLoop tri [k, k, k] fuel lti)
        (trimLoop tri [k, k, k] fuel lti + 3) ≠ [k, k, k] := by
  intro fuel
  induction fuel with
  | zero => intro lti h1 h2; omega
  | succ f ih =>
    intro lti h1 h2
    by_cases hc : pySlice tri lti (lti + 3) = [k, k, k]
    · have h0 := pySlice_three tri [k, k, k] lti rfl h1 hc
      simp only [trimLoop, if_pos hc]
      exact ih (lti - 3) (by omega) (by omega)
    · simpa only [trimLoop, if_neg hc] using hc

/-- Invariants of the sentinel scan: the returned index never grows,
never drops below `-3`, and keeps its residue modulo 3. -/
theorem trimLoop_bounds (tri : List Nat) (k : Nat) :
    ∀ (fuel : Nat) (lti : Int), -3 ≤ lti →
    trimLoop tri [k, k, k] fuel lti ≤ lti ∧
    -3 ≤ trimLoop tri [k, k, k] fuel lti ∧
    trimLoop tri [k, k, k] fuel lti % 3 = lti % 3 := by
  intro fuel
  induction fuel with
  | zero => intro lti h1; exact ⟨le_refl _, h1, rfl⟩
  | succ f ih =>
    intro lti h1
    by_cases hc : pySlice tri lti (lti + 3) = [k, k, k]
    · have h0 := pySlice_three tri [k, k, k] lti rfl h1 hc
      have hrec := ih (lti - 3) (by omega)
      simp only [trimLoop, if_pos hc]
      refine ⟨by omega, hrec.2.1, by omega⟩
    · simp only [trimLoop, if_neg hc]
      exact ⟨le_refl _, h1, trivial⟩

/-- A Python slice with stop bound `0` is always empty. -/
theorem pySlice_stop_zero {α : Type} (l : List α) (i : Int) :
    pySlice l i 0 = [] := by
  simp only [pySlice, pyNorm]
  have h0 : ¬ ((0 : Int) < 0) := by omega
  rw [if_neg h0]
  simp

/-- Grouping a list into triples maps a final complete triple to the
final triangle, provided the prefix length is itself a multiple of
three. -/
theorem tripleUp_append_last (a b c : Nat) :
    ∀ (xs : List Nat), 3 ∣ xs.length →
    (tripleUp (xs ++ [a, b, c])).getLast? = some (a, b, c)
  | [], _ => by simp [tripleUp]
  | [x], h => by simp at h
  | [x, y], h => by simp at h; omega
  | x :: y :: z :: rest, h => by
    have hdvd : 3 ∣ rest.length := by
      simp only [List.length_cons] at h
      omega
    have ih := tripleUp_append_last a b c rest hdvd
    simp only [List.cons_append, tripleUp]
    cases hT : tripleUp (rest ++ [a, b, c]) with
    | nil => rw [hT] at ih; simp at ih
    | cons t ts =>
      rw [hT] at ih
      rw [List.getLast?_cons_cons]
      exact ih

/-- The last element of a non-empty replicated list. -/
theorem getLastD_replicate (n k d : Nat) (h : 0 < n) :
    (List.replicate n k).getLastD d = k := by
  induction n with
  | zero => omega
  | succ m ih =>
    cases m with
    | zero => rfl
    | succ m' =>
      rw [List.replicate_succ, List.getLastD_cons]
      exact ih (by omega)

/-- On an all-sentinel buffer the scan walks all the way down to `-3`:
every in-range triple equals the sentinel, and the `-3` slice is empty
so the loop stops there. -/
theorem trimLoop_replicate (n k : Nat) :
    ∀ (fuel : Nat) (lti : Int), -3 ≤ lti → lti ≤ (n : Int) - 3 →
    3 ∣ (lti + 3) → (lti + 3).toNat + 3 ≤ 3 * fuel →
    trimLoop (List.replicate n k) [k, k, k] fuel lti = -3 := by
  intro fuel
  induction fuel with
  | zero => intro lti h1 h2 h3 h4; omega
  | succ f ih =>
    intro lti h1 h2 h3 h4
    rcases eq_or_lt_of_le h1 with heq | hgt
    · have hc : pySlice (List.replicate n k) lti (lti + 3) ≠ [k, k, k] := by
        rw [← heq]
        have h30 : ((-3 : Int) + 3) = 0 := by omega
        rw [h30, pySlice_stop_zero]
        simp
      simp only [trimLoop, if_neg hc]
      omega
    · have h0 : 0 ≤ lti := by omega
      have hb : lti.toNat + 3 ≤ n := by omega
      have hc : pySlice (List.replicate n k) lti (lti + 3) = [k, k, k] := by
        rw [pySlice_nonneg_take _ _ h0 (by simpa using hb), List.drop_replicate,
          List.take_replicate]
        have hmin : min 3 (n - lti.toNat) = 3 := by omega
        rw [hmin]
        rfl
      simp only [trimLoop, if_pos hc]
      exact ih (lti - 3) (by omega) (by omega) (by omega) (by omega)

/-- C10: a non-empty island buffer consisting entirely of sentinel
triplets `(k, k, k)` — `k` being its final index — decodes to an empty
triangle list. The backward scan steps through every triplet down to
index `-3`, where the Python slice is empty and the loop stops; in the
embedding every slice is a total `pySlice`, which clamps inside the
buffer, so no read ever leaves the buffer and the recursion
terminates within the supplied fuel (`trimLoop_exit`). -/
theorem parse_tris_island_all_sentinel (c k : Nat) (hc : 0 < c) :
    parse_tris_island (List.replicate (c * (TRIS_IN_CHUNK * 3)) k) = [] := by
  set n := c * (TRIS_IN_CHUNK * 3) with hn
  have h192 : TRIS_IN_CHUNK * 3 = 192 := rfl
  have hnpos : 0 < n := by rw [hn]; exact Nat.mul_pos hc (by decide)
  have hdvd : 3 ∣ n := ⟨c * TRIS_IN_CHUNK, by rw [hn]; ring⟩
  have hne : List.replicate n k ≠ [] := by
    intro h
    have := congrArg List.length h
    simp at this
    omega
  simp only [parse_tris_island, if_neg hne, List.length_replicate,
    getLastD_replicate n k 0 hnpos]
  rw [trimLoop_replicate n k (n / 3 + 2) ((n : Int) - 3) (by omega) (by omega)
    (by omega) (by omega)]
  have h30 : ((-3 : Int) + 3) = 0 := by omega
  rw [h30, pySlice_stop_zero]
  rfl

/-- C10 witness: one full sentinel chunk of the index 5 decodes to an
empty island. -/
theorem parse_tris_island_all_sentinel_witness :
    0 < 1 ∧ parse_tris_island (List.replicate (1 * (TRIS_IN_CHUNK * 3)) 5) = [] :=
  ⟨Nat.one_pos, parse_tris_island_all_sentinel 1 5 Nat.one_pos⟩

set_option maxRecDepth 4000 in
/-- C5 counterexample: one full chunk whose first triplet is
`(3, 3, 3)` and whose remaining 63 triplets are the sentinel
`(5, 5, 5)`. The scan only compares against `(last, last, last)` with
`last = 5`, so it trims the 63 sentinel triplets and stops at
`(3, 3, 3)`, leaving a degenerate triplet of the form `(k, k, k)`
(with `k = 3`) at the tail of the island. -/
theorem sentinel_trim_counterexample :
    ((3 : Nat) :: 3 :: 3 :: List.replicate 189 5).length = 1 * (TRIS_IN_CHUNK * 3) ∧
    (parse_tris_island ((3 : Nat) :: 3 :: 3 :: List.replicate 189 5)).getLast?
      = some (3, 3, 3) := by
  constructor
  · decide
  · decide

/-- C5 amended: after sentinel trimming, the island's triangle list
never ends with the triplet `(k, k, k)` where `k` is the last index of
the island's untrimmed buffer — the scan compares only against this
value; trailing degenerate triplets of a different index value can
remain (see the counterexample). -/
theorem parse_tris_island_no_sentinel_tail (tri : List Nat) (c k : Nat)
    (hlen : tri.length = c * (TRIS_IN_CHUNK * 3))
    (hk : tri.getLastD 0 = k) :
    (parse_tris_island tri).getLast? ≠ some (k, k, k) := by
  by_cases he : tri = []
  · subst he
    simp [parse_tris_island]
  · simp only [parse_tris_island, if_neg he, hk]
    have hdvd : 3 ∣ tri.length := ⟨c * TRIS_IN_CHUNK, by rw [hlen]; ring⟩
    have hstart : -3 ≤ (tri.length : Int) - 3 := by omega
    set lti := trimLoop tri [k, k, k] (tri.length / 3 + 2) ((tri.length : Int) - 3)
      with hlti
    have hexit := trimLoop_exit tri k (tri.length / 3 + 2) ((tri.length : Int) - 3)
      hstart (by omega)
    have hbnd := trimLoop_bounds tri k (tri.length / 3 + 2) ((tri.length : Int) - 3)
      hstart
    rw [← hlti] at hexit hbnd
    have hcases : lti = -3 ∨ 0 ≤ lti := by omega
    rcases hcases with heq | h0
    · rw [heq]
      have h30 : ((-3 : Int) + 3) = 0 := by omega
      rw [h30, pySlice_stop_zero]
      simp [tripleUp]
    · have hub : lti.toNat + 3 ≤ tri.length := by omega
      rw [pySlice_nonneg_take tri lti h0 hub] at hexit
      rw [pySlice_zero_nonneg tri (lti + 3) (by omega)]
      have htn : (lti + 3).toNat = lti.toNat + 3 := by omega
      rw [htn, List.take_add]
      obtain ⟨a, b, c', habc⟩ : ∃ a b c', (tri.drop lti.toNat).take 3 = [a, b, c'] := by
        apply List.length_eq_three.mp
        simp only [List.length_take, List.length_drop]
        omega
      rw [habc]
      rw [tripleUp_append_last a b c' (tri.take lti.toNat) (by
        simp only [List.length_take]
        have hm : lti % 3 = 0 := by omega
        have h3d : 3 ∣ lti.toNat := by omega
        omega)]
      intro hcontra
      simp only [Option.some.injEq, Prod.mk.injEq] at hcontra
      rw [habc] at hexit
      apply hexit
      rw [hcontra.1, hcontra.2.1, hcontra.2.2]

set_option maxRecDepth 4000 in
/-- C5 witness for the amended claim: a full all-7 sentinel chunk
trims to the empty island, which in particular does not end with
`(7, 7, 7)`. -/
theorem parse_tris_island_no_sentinel_tail_witness :
    (List.replicate 192 7 : List Nat).length = 1 * (TRIS_IN_CHUNK * 3) ∧
    (List.replicate 192 7 : List Nat).getLastD 0 = 7 ∧
    (parse_tris_island (List.replicate 192 7)).getLast? ≠ some (7, 7, 7) :=
  ⟨by decide, by decide,
   parse_tris_island_no_sentinel_tail (List.replicate 192 7) 1 7 (by decide) (by decide)⟩

/-- Filtering an enumeration from position `k` by membership in a
strictly sorted index list `used` (whose members all lie at or beyond
`k`) picks out exactly the elements at the listed positions, in the
order in which `used` lists them. -/
theorem enumFrom_filter_mem_map {α : Type} :
    ∀ (used : List Nat) (lst : List α) (k : Nat),
    List.Sorted (· < ·) used → (∀ i ∈ used, k ≤ i) →
    ((List.enumFrom k lst).filter (fun p => p.1 ∈ used)).map Prod.snd
      = used.filterMap (fun i => lst[i - k]?)
  | used, [], k => by
    intro _ _
    simp only [List.enumFrom, List.filter_nil, List.map_nil]
    rw [eq_comm, List.filterMap_eq_nil_iff]
    intro i _
    simp
  | [], a :: t, k => by
    intro _ _
    simp only [List.filterMap_nil]
    rw [List.filter_eq_nil_iff.mpr]
    · rfl
    · intro p _
      simp
  | u :: rest, a :: t, k => by
    intro hs hlb
    have hrest_sorted : List.Sorted (· < ·) rest := (List.sorted_cons.mp hs).2
    have hu_lt : ∀ x ∈ rest, u < x := (List.sorted_cons.mp hs).1
    have hku : k ≤ u := hlb u (List.mem_cons_self u rest)
    by_cases hmem : k ∈ u :: rest
    · have huk : u = k := by
        rcases List.mem_cons.mp hmem with h | h
        · omega
        · have := hu_lt k h
          omega
      subst huk
      have hne : ∀ p ∈ List.enumFrom (u + 1) t,
          (decide (p.1 ∈ u :: rest)) = (decide (p.1 ∈ rest)) := by
        intro p hp
        have hge := (List.mem_enumFrom hp).1
        simp only [List.mem_cons, decide_eq_decide]
        constructor
        · rintro (h | h)
          · omega
          · exact h
        · intro h
          exact Or.inr h
      have ih := enumFrom_filter_mem_map rest t (u + 1) hrest_sorted
        (fun i hi => hu_lt i hi)
      simp only [List.enumFrom, List.filter_cons]
      rw [if_pos (show decide (((u, a) : Nat × α).1 ∈ u :: rest) = true by simp)]
      rw [List.filter_congr hne]
      simp only [List.map_cons, ih]
      rw [List.filterMap_cons]
      simp only [Nat.sub_self, List.getElem?_cons_zero]
      congr 1
      apply List.filterMap_congr
      intro i hi
      have hgt := hu_lt i hi
      have : i - u = (i - (u + 1)) + 1 := by omega
      rw [this, List.getElem?_cons_succ]
    · have hknot : ∀ i ∈ u :: rest, u + 1 ≤ i ∨ i = u := by
        intro i hi
        rcases List.mem_cons.mp hi with h | h
        · omega
        · have := hu_lt i h
          omega
      have hlb' : ∀ i ∈ u :: rest, k + 1 ≤ i := by
        intro i hi
        have hk := hlb i hi
        rcases Nat.eq_or_lt_of_le hk with h | h
        · exact absurd (h ▸ hi) hmem
        · omega
      have ih := enumFrom_filter_mem_map (u :: rest) t (k + 1) hs hlb'
      simp only [List.enumFrom, List.filter_cons]
      rw [if_neg (by simpa using hmem)]
      rw [ih]
      apply List.filterMap_congr
      intro i hi
      have := hlb' i hi
      have hik : i - k = (i - (k + 1)) + 1 := by omega
      rw [hik, List.getElem?_cons_succ]

/-- `_filter_by_indices_` with a strictly sorted index list keeps
exactly the listed positions, in index order. -/
theorem filterByIndices_spec {α : Type} (lst : List α) (used : List Nat)
    (hs : List.Sorted (· < ·) used) :
    filterByIndices lst used = used.filterMap (fun i => lst[i]?) := by
  have h := enumFrom_filter_mem_map used lst 0 hs (fun i _ => Nat.zero_le i)
  simp only [Nat.sub_zero] at h
  exact h

/-- When every index is in range, the positional lookup keeps all of
them, so the compacted list has exactly one entry per index. -/
theorem filterMap_getElem?_length {α : Type} (lst : List α) (used : List Nat)
    (h : ∀ i ∈ used, i < lst.length) :
    (used.filterMap (fun i => lst[i]?)).length = used.length := by
  induction used with
  | nil => rfl
  | cons u rest ih =>
    have hb : u < lst.length := h u (List.mem_cons_self u rest)
    have hu : lst[u]? = some lst[u] := List.getElem?_eq_getElem hb
    have ihr := ih (fun i hi => h i (List.mem_cons_of_mem u hi))
    simp [List.filterMap_cons, hu, ihr]

/-- The sorted duplicate-free index list of `remove_isolated_verts` is
strictly sorted, and lists exactly the triangle-referenced indices. -/
theorem usedVertsSorted_spec (islands : List (Nat × List (Nat × Nat × Nat))) :
    List.Sorted (· < ·) (usedVertsSorted islands) ∧
    (∀ i, i ∈ usedVertsSorted islands ↔ i ∈ usedVertIndices islands) := by
  have hperm := List.perm_insertionSort (· ≤ ·) ((usedVertIndices islands).dedup)
  have hnd : (usedVertsSorted islands).Nodup :=
    hperm.nodup_iff.mpr (List.nodup_dedup _)
  have hsle : List.Sorted (· ≤ ·) (usedVertsSorted islands) :=
    List.sorted_insertionSort (· ≤ ·) _
  refine ⟨List.Sorted.lt_of_le hsle hnd, ?_⟩
  intro i
  unfold usedVertsSorted
  rw [List.mem_insertionSort, List.mem_dedup]

/-- C9: for a meshdata whose triangle indices are all in range of
`verts`, after `remove_isolated_verts` (1) every remapped triangle
index is below the compacted `verts` length; (2)–(5) `verts`,
`normals`, `uvs` and every color layer are compacted to exactly the
positions listed by the sorted referenced-index list, in that order
(so the `i`-th kept vertex is the vertex at the `i`-th smallest
referenced original index); (6) that index list is strictly
increasing; (7) it lists exactly the triangle-referenced indices; and
(8) the compacted `verts` has one entry per referenced index. -/
theorem remove_isolated_verts_spec {α : Type} (md : Meshdata α)
    (hbound : ∀ i ∈ usedVertIndices md.islands, i < md.verts.length) :
    (∀ p ∈ (remove_isolated_verts md).islands, ∀ t ∈ p.2,
      t.1 < (remove_isolated_verts md).verts.length ∧
      t.2.1 < (remove_isolated_verts md).verts.length ∧
      t.2.2 < (remove_isolated_verts md).verts.length) ∧
    (remove_isolated_verts md).verts
      = (usedVertsSorted md.islands).filterMap (fun i => md.verts[i]?) ∧
    (remove_isolated_verts md).normals
      = md.normals.map (fun l => (usedVertsSorted md.islands).filterMap (fun i => l[i]?)) ∧
    (remove_isolated_verts md).uvs
      = md.uvs.map (fun l => (usedVertsSorted md.islands).filterMap (fun i => l[i]?)) ∧
    (remove_isolated_verts md).colors
      = md.colors.map (fun cols =>
          cols.map (fun cl => (usedVertsSorted md.islands).filterMap (fun i => cl[i]?))) ∧
    List.Sorted (· < ·) (usedVertsSorted md.islands) ∧
    (∀ i, i ∈ usedVertsSorted md.islands ↔ i ∈ usedVertIndices md.islands) ∧
    (remove_isolated_verts md).verts.length = (usedVertsSorted md.islands).length := by
  obtain ⟨hsort, hmem⟩ := usedVertsSorted_spec md.islands
  have hverts : (remove_isolated_verts md).verts
      = filterByIndices md.verts (usedVertsSorted md.islands) := rfl
  have hvspec : (remove_isolated_verts md).verts
      = (usedVertsSorted md.islands).filterMap (fun i => md.verts[i]?) := by
    rw [hverts, filterByIndices_spec md.verts _ hsort]
  have hvlen : (remove_isolated_verts md).verts.length
      = (usedVertsSorted md.islands).length := by
    rw [hvspec]
    exact filterMap_getElem?_length md.verts _
      (fun i hi => hbound i ((hmem i).mp hi))
  refine ⟨?_, hvspec, ?_, ?_, ?_, hsort, hmem, hvlen⟩
  · intro p hp t ht
    have hisl : (remove_isolated_verts md).islands
        = md.islands.map (fun q => (q.1, q.2.map (fun tr =>
            ((usedVertsSorted md.islands).indexOf tr.1,
             (usedVertsSorted md.islands).indexOf tr.2.1,
             (usedVertsSorted md.islands).indexOf tr.2.2)))) := rfl
    rw [hisl] at hp
    obtain ⟨q, hq, hpq⟩ := List.mem_map.mp hp
    subst hpq
    simp only at ht
    obtain ⟨tr, htr, htq⟩ := List.mem_map.mp ht
    subst htq
    have hrefs : ∀ v ∈ [tr.1, tr.2.1, tr.2.2], v ∈ usedVertIndices md.islands := by
      intro v hv
      unfold usedVertIndices
      rw [List.mem_flatMap]
      exact ⟨q, hq, List.mem_flatMap.mpr ⟨tr, htr, hv⟩⟩
    have hidx : ∀ v ∈ [tr.1, tr.2.1, tr.2.2],
        (usedVertsSorted md.islands).indexOf v < (usedVertsSorted md.islands).length :=
      fun v hv => List.indexOf_lt_length.mpr ((hmem v).mpr (hrefs v hv))
    rw [hvlen]
    exact ⟨hidx tr.1 (by simp), hidx tr.2.1 (by simp), hidx tr.2.2 (by simp)⟩
  · have h : (remove_isolated_verts md).normals
        = md.normals.map (fun l => filterByIndices l (usedVertsSorted md.islands)) := rfl
    rw [h]
    cases md.normals with
    | none => rfl
    | some l => simp [filterByIndices_spec l _ hsort]
  · have h : (remove_isolated_verts md).uvs
        = md.uvs.map (fun l => filterByIndices l (usedVertsSorted md.islands)) := rfl
    rw [h]
    cases md.uvs with
    | none => rfl
    | some l => simp [filterByIndices_spec l _ hsort]
  · have h : (remove_isolated_verts md).colors
        = md.colors.map (fun cols =>
            cols.map (fun cl => filterByIndices cl (usedVertsSorted md.islands))) := rfl
    rw [h]
    cases md.colors with
    | none => rfl
    | some cols =>
      simp only [Option.map_some']
      congr 1
      apply List.map_congr_left
      intro cl _
      exact filterByIndices_spec cl _ hsort

/-- C9 witness: `verts = [10, 20, 30]` with one island referencing
indices 2, 0, 2 satisfies the range hypothesis, and the compacted
vertex list is the referenced vertices `[10, 30]` in increasing
original-index order. -/
theorem remove_isolated_verts_spec_witness :
    (∀ i ∈ usedVertIndices [(0, [(2, 0, 2)])], i < ([10, 20, 30] : List Nat).length) ∧
    (remove_isolated_verts
        (⟨[10, 20, 30], none, none, none, [(0, [(2, 0, 2)])]⟩ : Meshdata Nat)).verts
      = (usedVertsSorted [(0, [(2, 0, 2)])]).filterMap
          (fun i => ([10, 20, 30] : List Nat)[i]?) :=
  ⟨by decide,
   (remove_isolated_verts_spec
     (⟨[10, 20, 30], none, none, none, [(0, [(2, 0, 2)])]⟩ : Meshdata Nat)
     (by decide)).2.1⟩
